import Mathlib

/-!
# MiniWebServer: the worker pool of `threadpool.h`

A shallow embedding of `threadpool<T>` (src/threadpool.h) together with the
semaphore and mutex of `locker.h`, in two layers.

* The sequential layer gives the effect of one call of `append`, `append_p`
  and of the dispatch part of `run` on the pool fields and on the request
  objects.
* The interleaving layer gives every thread a program counter that ranges
  over the statements of `append`, `append_p` and `run`; one step of the
  system executes one statement of one thread.  `locker::lock` is enabled
  only when the mutex is free; `sem::wait` decrements a positive count, blocks
  on a zero count, or fails (`sem_wait` interrupted) and returns without a
  decrement, which `run` does not check.

Requests live in a heap indexed by address; address `0` is the null pointer.
-/

namespace MiniWebServer

/-! ## Data model -/

/-- Address of an object; `0` is the null pointer. -/
abbrev Ptr := Nat

/-- Modelled from the spec: the request type `T` is the template argument of
`threadpool<T>` and is not declared in the source.  The pool touches the
fields `m_state` (the stage tag, compared with `0`), `improv` and `timer_flag`
(boolean out-flags, so that the stores `= 1` of `run` store `true`) and
`mysql` (the slot a scoped connection is bound to); `rest` stands for
everything else the request carries. -/
structure Request (β : Type) where
  m_state : Int
  improv : Bool
  timer_flag : Bool
  mysql : Ptr
  rest : β

/-- Request objects by address. -/
abbrev Heap (β : Type) := Ptr → Request β

/-- Store `r` at address `a`. -/
def Heap.store {β : Type} (h : Heap β) (a : Ptr) (r : Request β) : Heap β :=
  fun b => if b = a then r else h b

/-- The data members of `threadpool<T>` that the member functions read or
write: `m_workqueue` holds request addresses, `m_queuestat` is the count of
the semaphore (`sem`, a natural number).  The mutex `m_queuelocker` belongs to
the interleaving layer; the thread handles `m_threads` and the pointer
`m_connPool`, which `run` only passes on to `connectionRAII`, are left out. -/
structure Pool where
  m_thread_number : Int
  m_max_requests : Int
  m_workqueue : List Ptr
  m_queuestat : Nat
  m_actor_model : Int

/-- Conversion of an `int` to `size_t` (64 bits), as the comparison
`m_workqueue.size() >= m_max_requests` performs it on its right operand: a
positive `int` keeps its value, a negative one wraps around. -/
def toSizeT (i : Int) : Nat := (i % 2 ^ 64).toNat

/-- The test `m_workqueue.size() >= m_max_requests` of `append` and
`append_p`. -/
def queueFull (p : Pool) : Bool :=
  decide (toSizeT p.m_max_requests ≤ p.m_workqueue.length)

/-- Constructor `threadpool(actor_model, connPool, thread_number,
max_requests)`: throws (here `none`) when `thread_number <= 0` or
`max_requests <= 0`; otherwise the queue is empty and the semaphore, built by
`sem()`, counts `0`.  Thread creation is assumed to succeed. -/
def threadpool_new (actor_model thread_number max_requests : Int) : Option Pool :=
  if thread_number ≤ 0 ∨ max_requests ≤ 0 then none
  else some
    { m_thread_number := thread_number
      m_max_requests := max_requests
      m_workqueue := []
      m_queuestat := 0
      m_actor_model := actor_model }

/-! ## Sequential layer: `append` and `append_p` -/

/-- One call of `threadpool::append(request, state)` run without
interference.  The result is `none` when the call dereferences a null
`request`; otherwise the returned flag, the pool and the heap. -/
def append {β : Type} (p : Pool) (h : Heap β) (request : Ptr) (state : Int) :
    Option (Bool × Pool × Heap β) :=
  -- m_queuelocker.lock();
  if queueFull p then
    -- m_queuelocker.unlock(); return false;
    some (false, p, h)
  else if request = 0 then
    none
  else
    -- request->m_state = state;
    let h1 := h.store request { h request with m_state := state }
    -- m_workqueue.push_back(request);
    let p1 := { p with m_workqueue := p.m_workqueue ++ [request] }
    -- m_queuelocker.unlock();
    -- m_queuestat.post();
    let p2 := { p1 with m_queuestat := p1.m_queuestat + 1 }
    some (true, p2, h1)

/-- One call of `threadpool::append_p(request)` run without interference. -/
def append_p {β : Type} (p : Pool) (h : Heap β) (request : Ptr) :
    Option (Bool × Pool × Heap β) :=
  -- m_queuelocker.lock();
  if queueFull p then
    -- m_queuelocker.unlock(); return false;
    some (false, p, h)
  else
    -- m_workqueue.push_back(request);
    let p1 := { p with m_workqueue := p.m_workqueue ++ [request] }
    -- m_queuelocker.unlock();
    -- m_queuestat.post();
    let p2 := { p1 with m_queuestat := p1.m_queuestat + 1 }
    some (true, p2, h)

/-! ## Sequential layer: the dispatch part of `run` -/

/-- What the pool does to a request or asks of a collaborator, in program
order: the three capability calls, the construction and destruction of the
`connectionRAII` object, and the pool's own stores to the two out-flags. -/
inductive Event where
  | read_once
  | write
  | process
  | acquire
  | release
  | set_improv
  | set_timer_flag
  deriving DecidableEq, Repr

/-- The collaborators of the pool, taken as parameters: the capability
methods of the request type (each may change the request it is called on) and
the connection the pool behind `m_connPool` hands out. -/
structure Env (β : Type) where
  read_once : Request β → Bool × Request β
  write : Request β → Bool × Request β
  process : Request β → Request β
  conn : Ptr

/-- Modelled from the spec: `connectionRAII` is not declared in the source.
Its constructor binds a connection of the pool to the output slot it is given
(`&request->mysql`); its destructor returns the connection when the scope
ends and leaves the request alone. -/
def connectionRAII {β : Type} (env : Env β) (r : Request β) : Request β :=
  { r with mysql := env.conn }

/-- Lines 181 to 214 of `run` on the request object `r` the popped pointer
refers to: the request afterwards and the events in program order. -/
def dispatch {β : Type} (env : Env β) (m_actor_model : Int) (r : Request β) :
    Request β × List Event :=
  if 1 = m_actor_model then
    if 0 = r.m_state then
      let res := env.read_once r
      if res.1 then
        -- request->improv = 1;
        let r1 := { res.2 with improv := true }
        -- connectionRAII mysqlcon(&request->mysql, m_connPool);
        let r2 := connectionRAII env r1
        -- request->process();
        let r3 := env.process r2
        (r3, [.read_once, .set_improv, .acquire, .process, .release])
      else
        -- request->improv = 1; request->timer_flag = 1;
        ({ res.2 with improv := true, timer_flag := true },
          [.read_once, .set_improv, .set_timer_flag])
    else
      let res := env.write r
      if res.1 then
        -- request->improv = 1;
        ({ res.2 with improv := true }, [.write, .set_improv])
      else
        -- request->improv = 1; request->timer_flag = 1;
        ({ res.2 with improv := true, timer_flag := true },
          [.write, .set_improv, .set_timer_flag])
  else
    -- connectionRAII mysqlcon(&request->mysql, m_connPool);
    let r1 := connectionRAII env r
    -- request->process();
    (env.process r1, [.acquire, .process, .release])

/-- Lines 179 to 214 of `run`, on the popped pointer: a null pointer is
skipped, any other is dispatched and its object written back. -/
def afterPop {β : Type} (env : Env β) (m_actor_model : Int) (request : Ptr)
    (h : Heap β) : Heap β × List Event :=
  if request = 0 then (h, [])
  else
    let res := dispatch env m_actor_model (h request)
    (h.store request res.1, res.2)

/-! ## Interleaving layer -/

/-- Program counter of a thread.  The `a` points belong to one activation of
`append` (`state = some v`) or `append_p` (`state = none`), the `w` points to
a worker in `run`; each names the statement the thread executes next and
carries the locals that are live there. -/
inductive PC where
  /-- Line 128 / 144: `m_queuelocker.lock()`. -/
  | aLock (request : Ptr) (state : Option Int)
  /-- Line 129 / 145: `if (m_workqueue.size() >= m_max_requests)`. -/
  | aCheck (request : Ptr) (state : Option Int)
  /-- Line 131 / 147: `m_queuelocker.unlock(); return false;`. -/
  | aUnlockFull
  /-- Line 134: `request->m_state = state`. -/
  | aSet (request : Ptr) (state : Int)
  /-- Line 135 / 150: `m_workqueue.push_back(request)`. -/
  | aPush (request : Ptr)
  /-- Line 136 / 151: `m_queuelocker.unlock()`. -/
  | aUnlock
  /-- Line 137 / 152: `m_queuestat.post(); return true;`. -/
  | aPost
  /-- The call has returned `result`. -/
  | aRet (result : Bool)
  /-- Line 169: `m_queuestat.wait()`. -/
  | wWait
  /-- Line 170: `m_queuelocker.lock()`. -/
  | wLock
  /-- Line 171: `if (m_workqueue.empty())`. -/
  | wCheck
  /-- Line 173: `m_queuelocker.unlock(); continue;`. -/
  | wUnlockEmpty
  /-- Line 176: `T *request = m_workqueue.front()`. -/
  | wFront
  /-- Line 177: `m_workqueue.pop_front()`. -/
  | wPop (request : Ptr)
  /-- Line 178: `m_queuelocker.unlock()`. -/
  | wUnlock (request : Ptr)
  /-- Lines 179 to 214: the null test and the dispatch. -/
  | wDispatch (request : Ptr)
  deriving DecidableEq, Repr

/-- The state all threads share: the pool fields, the mutex `m_queuelocker`
(the index of the thread that holds it, if any) and the request objects. -/
structure Shared (β : Type) where
  pool : Pool
  m_queuelocker : Option Nat
  heap : Heap β

/-- A state of the system: the shared state and the program counter of every
thread, indexed by thread. -/
structure Sys (β : Type) where
  sh : Shared β
  threads : List PC

/-- The two queue events a run is observed by, in the order they happen. -/
inductive Obs where
  | pushed (request : Ptr)
  | popped (request : Ptr)
  deriving DecidableEq, Repr

/-- One statement of thread `i` at program counter `pc`: the next program
counter, the shared state and the queue event the statement gives rise to.
`none` when the statement cannot be executed now (`lock` on a held mutex,
`wait` on a zero count), when the activation has returned, or when the
statement has undefined behaviour (a store through a null pointer, `front` or
`pop_front` on an empty list).  `wait` is the successful one here, which
decrements; the failing one is the action `wait_fails` of `step`. -/
def next {β : Type} (env : Env β) (sh : Shared β) (i : Nat) :
    PC → Option (PC × Shared β × List Obs)
  | .aLock r st =>
    if sh.m_queuelocker = none then
      some (.aCheck r st, { sh with m_queuelocker := some i }, [])
    else none
  | .aCheck r st =>
    if queueFull sh.pool then some (.aUnlockFull, sh, [])
    else
      match st with
      | some v => some (.aSet r v, sh, [])
      | none => some (.aPush r, sh, [])
  | .aUnlockFull => some (.aRet false, { sh with m_queuelocker := none }, [])
  | .aSet r v =>
    if r = 0 then none
    else some (.aPush r, { sh with heap := sh.heap.store r { sh.heap r with m_state := v } }, [])
  | .aPush r =>
    some (.aUnlock,
      { sh with pool := { sh.pool with m_workqueue := sh.pool.m_workqueue ++ [r] } },
      [.pushed r])
  | .aUnlock => some (.aPost, { sh with m_queuelocker := none }, [])
  | .aPost =>
    some (.aRet true,
      { sh with pool := { sh.pool with m_queuestat := sh.pool.m_queuestat + 1 } }, [])
  | .aRet _ => none
  | .wWait =>
    if 0 < sh.pool.m_queuestat then
      some (.wLock,
        { sh with pool := { sh.pool with m_queuestat := sh.pool.m_queuestat - 1 } }, [])
    else none
  | .wLock =>
    if sh.m_queuelocker = none then
      some (.wCheck, { sh with m_queuelocker := some i }, [])
    else none
  | .wCheck =>
    if sh.pool.m_workqueue.isEmpty then some (.wUnlockEmpty, sh, [])
    else some (.wFront, sh, [])
  | .wUnlockEmpty => some (.wWait, { sh with m_queuelocker := none }, [])
  | .wFront =>
    match sh.pool.m_workqueue with
    | [] => none
    | r :: _ => some (.wPop r, sh, [])
  | .wPop r =>
    match sh.pool.m_workqueue with
    | [] => none
    | _ :: rest =>
      some (.wUnlock r, { sh with pool := { sh.pool with m_workqueue := rest } }, [.popped r])
  | .wUnlock r => some (.wDispatch r, { sh with m_queuelocker := none }, [])
  | .wDispatch r =>
    some (.wWait,
      { sh with heap := (afterPop env sh.pool.m_actor_model r sh.heap).1 }, [])

/-- What may happen next: a producer thread enters `append` or `append_p`;
thread `i` executes its next statement; or `sem_wait` fails in worker `i`
(it is interrupted by a signal handler), so that `sem::wait` returns `false`
without a decrement, a result line 169 of `run` discards. -/
inductive Action where
  | append (request : Ptr) (state : Int)
  | append_p (request : Ptr)
  | run (i : Nat)
  | wait_fails (i : Nat)
  deriving DecidableEq, Repr

/-- Whether the action is a failing `sem_wait`. -/
def Action.isWaitFailure : Action → Bool
  | .wait_fails _ => true
  | _ => false

/-- A schedule in which every `wait` returns only after a decrement. -/
def reliable (sched : List Action) : Bool :=
  sched.all fun a => !a.isWaitFailure

/-- One step of the system. -/
def step {β : Type} (env : Env β) (s : Sys β) : Action → Option (Sys β × List Obs)
  | .append r v => some ({ s with threads := s.threads ++ [.aLock r (some v)] }, [])
  | .append_p r => some ({ s with threads := s.threads ++ [.aLock r none] }, [])
  | .run i =>
    match s.threads[i]? with
    | none => none
    | some pc =>
      match next env s.sh i pc with
      | none => none
      | some (pc1, sh1, obs) => some ({ sh := sh1, threads := s.threads.set i pc1 }, obs)
  | .wait_fails i =>
    match s.threads[i]? with
    | some .wWait => some ({ s with threads := s.threads.set i .wLock }, [])
    | _ => none

/-- Run a schedule from `s`; the events are collected in order. -/
def exec {β : Type} (env : Env β) (s : Sys β) : List Action → Option (Sys β × List Obs)
  | [] => some (s, [])
  | a :: rest =>
    match step env s a with
    | none => none
    | some (s1, obs) =>
      match exec env s1 rest with
      | none => none
      | some (s2, tr) => some (s2, obs ++ tr)

/-- The system right after construction: the mutex is free and each of the
`m_thread_number` workers is about to execute line 169. -/
def boot {β : Type} (p : Pool) (h : Heap β) : Sys β :=
  { sh := { pool := p, m_queuelocker := none, heap := h }
    threads := List.replicate p.m_thread_number.toNat .wWait }

/-- The requests pushed in a run, in push order. -/
def pushes : List Obs → List Ptr
  | [] => []
  | .pushed r :: tr => r :: pushes tr
  | .popped _ :: tr => pushes tr

/-- The requests popped in a run, in pop order. -/
def pops : List Obs → List Ptr
  | [] => []
  | .pushed _ :: tr => pops tr
  | .popped r :: tr => r :: pops tr

/-- Whether a thread at `pc` is between `lock` and `unlock`. -/
def crit : PC → Bool
  | .aCheck _ _ | .aUnlockFull | .aSet _ _ | .aPush _ | .aUnlock => true
  | .wCheck | .wUnlockEmpty | .wFront | .wPop _ | .wUnlock _ => true
  | _ => false

/-- `1` for an activation of `append` or `append_p` that has pushed its
request and not yet posted the semaphore. -/
def pendingPost : PC → Nat
  | .aUnlock | .aPost => 1
  | _ => 0

/-- `1` for a worker that has returned from `wait` and not yet popped (nor
found the queue empty). -/
def pendingPop : PC → Nat
  | .wLock | .wCheck | .wFront | .wPop _ => 1
  | _ => 0

/-- Number of activations between their push and their post. -/
def pendingPosts {β : Type} (s : Sys β) : Nat := (s.threads.map pendingPost).sum

/-- Number of workers between their wait and their pop. -/
def pendingPops {β : Type} (s : Sys β) : Nat := (s.threads.map pendingPop).sum

/-- What the statement at `pc` relies on, for a thread that holds the mutex. -/
def localOK (p : Pool) : PC → Prop
  | .aSet _ _ | .aPush _ => queueFull p = false
  | .wFront => p.m_workqueue ≠ []
  | .wPop r => p.m_workqueue.head? = some r
  | _ => True

/-- The inductive invariant of the system, for a state `s` and the events
`hist` that led to it: the threads between `lock` and `unlock` are exactly
the holder of the mutex, each of them finds what its next statement relies
on, the queue is within its capacity, and it holds what was pushed and not
yet popped. -/
structure Inv {β : Type} (s : Sys β) (hist : List Obs) : Prop where
  mutex : ∀ (i : Nat) (pc : PC), s.threads[i]? = some pc →
    (crit pc = true ↔ s.sh.m_queuelocker = some i)
  holder : ∀ i : Nat, s.sh.m_queuelocker = some i → i < s.threads.length
  loc : ∀ (i : Nat) (pc : PC), s.threads[i]? = some pc → localOK s.sh.pool pc
  bound : s.sh.pool.m_workqueue.length ≤ toSizeT s.sh.pool.m_max_requests
  fifo : pushes hist = pops hist ++ s.sh.pool.m_workqueue

/-- The linkage between semaphore and queue, inductive along reliable
schedules: every queued request is accounted for by the count, by a post
still to come or by a worker on its way to pop; no worker is at line 173. -/
structure Linked {β : Type} (s : Sys β) : Prop where
  link : s.sh.pool.m_workqueue.length
    = s.sh.pool.m_queuestat + pendingPosts s + pendingPops s
  noEmpty : ∀ i : Nat, s.threads[i]? ≠ some .wUnlockEmpty

/-! ## Concrete collaborators and states used to exercise the theorems -/

/-- A request type whose capability methods succeed and change nothing. -/
def envId : Env Unit :=
  { read_once := fun r => (true, r)
    write := fun r => (true, r)
    process := fun r => r
    conn := 7 }

/-- A request type whose read and write steps fail. -/
def envFail : Env Unit :=
  { read_once := fun r => (false, r)
    write := fun r => (false, r)
    process := fun r => r
    conn := 7 }

/-- A heap in which every request is fresh: stage `0`, both flags clear. -/
def heapFresh : Heap Unit :=
  fun _ => { m_state := 0, improv := false, timer_flag := false, mysql := 0, rest := () }

/-- A heap in which every request is at stage `0` with `timer_flag` set. -/
def heapExpiring : Heap Unit :=
  fun _ => { m_state := 0, improv := false, timer_flag := true, mysql := 0, rest := () }

/-- A heap in which every request is at stage `1`. -/
def heapWriting : Heap Unit :=
  fun _ => { m_state := 1, improv := false, timer_flag := false, mysql := 0, rest := () }

/-- A reactor pool of one worker and capacity two, as constructed. -/
def poolSmall : Pool :=
  { m_thread_number := 1, m_max_requests := 2, m_workqueue := [], m_queuestat := 0,
    m_actor_model := 1 }

/-- The pool `poolSmall` with a full queue. -/
def poolFull : Pool := { poolSmall with m_workqueue := [5, 6], m_queuestat := 2 }

/-- What an observer sees of a state: the holder of the mutex, the semaphore
count, the queue and the program counters. -/
def snapshot {β : Type} (s : Sys β) : Option Nat × Nat × List Ptr × List PC :=
  (s.sh.m_queuelocker, s.sh.pool.m_queuestat, s.sh.pool.m_workqueue, s.threads)

/-- A schedule for `poolSmall`: a producer (thread `1`) runs `append_p(5)` to
completion, then the worker (thread `0`) returns from `wait` and takes the
mutex. -/
def schedLocked : List Action :=
  [.append_p 5, .run 1, .run 1, .run 1, .run 1, .run 1, .run 0, .run 0]

/-- The state `schedLocked` leads to: the worker holds the mutex and is about
to test the queue. -/
def sysLocked : Sys Unit :=
  { sh :=
      { pool := { poolSmall with m_workqueue := [5], m_queuestat := 0 }
        m_queuelocker := some 0
        heap := heapFresh }
    threads := [.wCheck, .aRet true] }

/-- A schedule for `poolSmall` with two producers: thread `1` runs
`append_p(5)` up to its unlock, thread `2` runs `append_p(6)` to completion,
then the worker (thread `0`) waits, takes the mutex and pops, all before
thread `1` has posted. -/
def schedPopped : List Action :=
  [.append_p 5, .append_p 6, .run 1, .run 1, .run 1, .run 1,
    .run 2, .run 2, .run 2, .run 2, .run 2,
    .run 0, .run 0, .run 0, .run 0, .run 0]

/-- The state `schedPopped` leads to. -/
def sysPopped : Sys Unit :=
  { sh :=
      { pool := { poolSmall with m_workqueue := [6], m_queuestat := 0 }
        m_queuelocker := some 0
        heap := heapFresh }
    threads := [.wUnlock 5, .aPost, .aRet true] }

/-- A schedule for `poolSmall` in which the `sem_wait` of the worker fails
before anything was appended; the worker then takes the mutex and tests the
queue. -/
def schedInterrupted : List Action := [.wait_fails 0, .run 0, .run 0]

/-! ## Arithmetic of the capacity test -/

theorem toSizeT_le (m : Int) (h : 0 ≤ m) : (toSizeT m : Int) ≤ m := by
  unfold toSizeT
  omega

theorem toSizeT_eq (m : Int) (h0 : 0 ≤ m) (h1 : m < 2 ^ 31) : (toSizeT m : Int) = m := by
  unfold toSizeT
  omega

/-! ## Lists of program counters -/

theorem getElem?_set_cases {α : Type} (l : List α) (i j : Nat) (x y : α)
    (h : (l.set i x)[j]? = some y) : (j = i ∧ y = x) ∨ (j ≠ i ∧ l[j]? = some y) := by
  by_cases hij : i = j
  · subst hij
    left
    rw [List.getElem?_set] at h
    simp only [if_true] at h
    split at h
    · exact ⟨rfl, (Option.some.inj h).symm⟩
    · exact absurd h (by simp)
  · right
    rw [List.getElem?_set_ne hij] at h
    exact ⟨fun e => hij e.symm, h⟩

theorem sum_map_set {α : Type} (f : α → Nat) (l : List α) (i : Nat) (a b : α)
    (h : l[i]? = some a) : ((l.set i b).map f).sum + f a = (l.map f).sum + f b := by
  induction l generalizing i with
  | nil => simp at h
  | cons x xs ih =>
    cases i with
    | zero =>
      simp only [List.getElem?_cons_zero, Option.some.injEq] at h
      subst h
      simp only [List.set_cons_zero, List.map_cons, List.sum_cons]
      omega
    | succ n =>
      simp only [List.getElem?_cons_succ] at h
      have := ih n h
      simp only [List.set_cons_succ, List.map_cons, List.sum_cons]
      omega

theorem le_sum_map {α : Type} (f : α → Nat) (l : List α) (i : Nat) (a : α)
    (h : l[i]? = some a) : f a ≤ (l.map f).sum := by
  induction l generalizing i with
  | nil => simp at h
  | cons x xs ih =>
    cases i with
    | zero =>
      simp at h
      subst h
      simp
    | succ n =>
      simp at h
      have := ih n h
      simp
      omega

theorem pushes_append (a b : List Obs) : pushes (a ++ b) = pushes a ++ pushes b := by
  induction a with
  | nil => rfl
  | cons x xs ih => cases x <;> simp [pushes, ih]

theorem pops_append (a b : List Obs) : pops (a ++ b) = pops a ++ pops b := by
  induction a with
  | nil => rfl
  | cons x xs ih => cases x <;> simp [pushes, pops, ih]

/-! ## One statement preserves what the invariants need -/

theorem localOK_of_not_crit (p : Pool) (pc : PC) (h : crit pc = false) : localOK p pc := by
  cases pc <;> simp_all [crit, localOK]

theorem localOK_congr (p p1 : Pool) (pc : PC) (hq : p1.m_workqueue = p.m_workqueue)
    (hm : p1.m_max_requests = p.m_max_requests) (h : localOK p pc) : localOK p1 pc := by
  cases pc <;> simp_all [localOK, queueFull]

theorem lt_length_of_getElem? {α : Type} (l : List α) (i : Nat) (a : α)
    (h : l[i]? = some a) : i < l.length := by
  by_contra hge
  rw [List.getElem?_eq_none (by omega)] at h
  exact absurd h (by simp)

theorem next_facts {β : Type} (env : Env β) (sh sh1 : Shared β) (i : Nat) (pc pc1 : PC)
    (obs : List Obs) (hn : next env sh i pc = some (pc1, sh1, obs))
    (hm : crit pc = true ↔ sh.m_queuelocker = some i)
    (hl : localOK sh.pool pc) :
    (crit pc1 = true ↔ sh1.m_queuelocker = some i) ∧
    (∀ j, j ≠ i → (sh1.m_queuelocker = some j ↔ sh.m_queuelocker = some j)) ∧
    (crit pc = false → sh1.pool.m_workqueue = sh.pool.m_workqueue) ∧
    sh1.pool.m_max_requests = sh.pool.m_max_requests ∧
    localOK sh1.pool pc1 ∧
    (sh.pool.m_workqueue.length ≤ toSizeT sh.pool.m_max_requests →
      sh1.pool.m_workqueue.length ≤ toSizeT sh1.pool.m_max_requests) ∧
    (∀ hist, pushes hist = pops hist ++ sh.pool.m_workqueue →
      pushes (hist ++ obs) = pops (hist ++ obs) ++ sh1.pool.m_workqueue) := by
  cases pc <;> simp only [next] at hn
  all_goals (repeat' (split at hn))
  all_goals cases hn
  all_goals simp_all [crit, localOK, pushes_append, pops_append, pushes, pops, queueFull]
  all_goals omega

theorem next_link {β : Type} (env : Env β) (sh sh1 : Shared β) (i : Nat) (pc pc1 : PC)
    (obs : List Obs) (hn : next env sh i pc = some (pc1, sh1, obs))
    (hl : localOK sh.pool pc)
    (hw : pendingPop pc ≤ sh.pool.m_workqueue.length) :
    (sh1.pool.m_workqueue.length + sh.pool.m_queuestat + pendingPost pc + pendingPop pc
      = sh.pool.m_workqueue.length + sh1.pool.m_queuestat + pendingPost pc1 + pendingPop pc1) ∧
    pc1 ≠ .wUnlockEmpty := by
  cases pc <;> simp only [next] at hn
  all_goals (repeat' (split at hn))
  all_goals cases hn
  all_goals simp_all [pendingPost, pendingPop, localOK]
  all_goals omega

/-! ## The invariants are inductive -/

theorem boot_getElem? {β : Type} (p : Pool) (h : Heap β) (i : Nat) (pc : PC)
    (hpc : (boot p h).threads[i]? = some pc) : pc = .wWait :=
  List.eq_of_mem_replicate (List.getElem?_mem hpc)

theorem inv_boot {β : Type} (p : Pool) (h : Heap β) (hq : p.m_workqueue = []) :
    Inv (boot p h) [] := by
  refine ⟨?_, ?_, ?_, ?_, ?_⟩
  · intro i pc hpc
    rw [boot_getElem? p h i pc hpc]
    simp [crit, boot]
  · intro i hi
    simp [boot] at hi
  · intro i pc hpc
    rw [boot_getElem? p h i pc hpc]
    simp [localOK]
  · simp [boot, hq]
  · simp [boot, hq, pushes, pops]

theorem linked_boot {β : Type} (p : Pool) (h : Heap β) (hq : p.m_workqueue = [])
    (hs : p.m_queuestat = 0) : Linked (boot p h) := by
  have hsum : ∀ f : PC → Nat, f .wWait = 0 → ((boot p h).threads.map f).sum = 0 := by
    intro f hf
    simp [boot, hf]
  refine ⟨?_, ?_⟩
  · simp only [pendingPosts, pendingPops, hsum pendingPost rfl, hsum pendingPop rfl]
    simp [boot, hq, hs]
  · intro i hi
    exact absurd (boot_getElem? p h i _ hi) (by simp)

theorem getElem?_append_singleton {α : Type} (l : List α) (x y : α) (i : Nat)
    (h : (l ++ [x])[i]? = some y) : l[i]? = some y ∨ (i = l.length ∧ y = x) := by
  by_cases hi : i < l.length
  · left
    rwa [List.getElem?_append_left hi] at h
  · right
    rw [List.getElem?_append_right (by omega)] at h
    have hlt : i - l.length < 1 := by
      by_contra hge
      rw [List.getElem?_eq_none (by simp; omega)] at h
      exact absurd h (by simp)
    have h0 : i - l.length = 0 := by omega
    rw [h0] at h
    simp at h
    exact ⟨by omega, h.symm⟩

theorem inv_spawn {β : Type} (s : Sys β) (hist : List Obs) (r : Ptr) (st : Option Int)
    (hinv : Inv s hist) : Inv { s with threads := s.threads ++ [.aLock r st] } hist := by
  refine ⟨?_, ?_, ?_, hinv.bound, hinv.fifo⟩
  · intro i pc hpc
    rcases getElem?_append_singleton s.threads _ pc i hpc with h1 | ⟨hi, rfl⟩
    · exact hinv.mutex i pc h1
    · constructor
      · intro hc
        simp [crit] at hc
      · intro hh
        have := hinv.holder i hh
        omega
  · intro i hi
    have := hinv.holder i hi
    simp only [List.length_append, List.length_singleton]
    omega
  · intro i pc hpc
    rcases getElem?_append_singleton s.threads _ pc i hpc with h1 | ⟨_, rfl⟩
    · exact hinv.loc i pc h1
    · simp [localOK]

theorem linked_spawn {β : Type} (s : Sys β) (r : Ptr) (st : Option Int)
    (hl : Linked s) : Linked { s with threads := s.threads ++ [.aLock r st] } := by
  refine ⟨?_, ?_⟩
  · have := hl.link
    simp only [pendingPosts, pendingPops, List.map_append, List.sum_append, List.map_cons,
      List.map_nil, List.sum_cons, List.sum_nil, pendingPost, pendingPop] at this ⊢
    omega
  · intro i hi
    rcases getElem?_append_singleton s.threads _ _ i hi with h1 | ⟨_, h2⟩
    · exact hl.noEmpty i h1
    · exact absurd h2 (by simp)

/-- A thread other than `i` keeps its invariant when thread `i`, outside the
mutex section, moves to another program counter outside it. -/
theorem inv_retarget {β : Type} (s : Sys β) (hist : List Obs) (i : Nat) (pc pc1 : PC)
    (hinv : Inv s hist) (hpc : s.threads[i]? = some pc) (hc : crit pc = false)
    (hc1 : crit pc1 = false) : Inv { s with threads := s.threads.set i pc1 } hist := by
  have hni : s.sh.m_queuelocker ≠ some i := by
    intro e
    have := (hinv.mutex i pc hpc).mpr e
    rw [hc] at this
    exact absurd this (by simp)
  refine ⟨?_, ?_, ?_, hinv.bound, hinv.fifo⟩
  · intro j pcj hj
    rcases getElem?_set_cases s.threads i j pc1 pcj hj with ⟨rfl, rfl⟩ | ⟨_, hold⟩
    · constructor
      · intro h1
        rw [hc1] at h1
        exact absurd h1 (by simp)
      · intro h1
        exact absurd h1 hni
    · exact hinv.mutex j pcj hold
  · intro j hj
    simp only [List.length_set]
    exact hinv.holder j hj
  · intro j pcj hj
    rcases getElem?_set_cases s.threads i j pc1 pcj hj with ⟨rfl, rfl⟩ | ⟨_, hold⟩
    · exact localOK_of_not_crit _ _ hc1
    · exact hinv.loc j pcj hold

theorem inv_step {β : Type} (env : Env β) (s s1 : Sys β) (hist obs : List Obs) (a : Action)
    (hinv : Inv s hist) (hs : step env s a = some (s1, obs)) : Inv s1 (hist ++ obs) := by
  cases a with
  | append r v =>
    simp only [step, Option.some.injEq, Prod.mk.injEq] at hs
    obtain ⟨rfl, rfl⟩ := hs
    simpa using inv_spawn s hist r (some v) hinv
  | append_p r =>
    simp only [step, Option.some.injEq, Prod.mk.injEq] at hs
    obtain ⟨rfl, rfl⟩ := hs
    simpa using inv_spawn s hist r none hinv
  | wait_fails i =>
    simp only [step] at hs
    split at hs
    · rename_i hpc
      simp only [Option.some.injEq, Prod.mk.injEq] at hs
      obtain ⟨rfl, rfl⟩ := hs
      simpa using inv_retarget s hist i .wWait .wLock hinv hpc rfl rfl
    · exact absurd hs (by simp)
  | run i =>
    simp only [step] at hs
    cases hpc : s.threads[i]? with
    | none => simp [hpc] at hs
    | some pc =>
      cases hn : next env s.sh i pc with
      | none => simp [hpc, hn] at hs
      | some res =>
        obtain ⟨pc1, sh1, obs1⟩ := res
        simp only [hpc, hn, Option.some.injEq, Prod.mk.injEq] at hs
        obtain ⟨rfl, rfl⟩ := hs
        have hmi := hinv.mutex i pc hpc
        obtain ⟨n1, n2, n3, n4, n5, n6, n7⟩ :=
          next_facts env s.sh sh1 i pc pc1 obs1 hn hmi (hinv.loc i pc hpc)
        have hilt := lt_length_of_getElem? s.threads i pc hpc
        refine ⟨?_, ?_, ?_, n6 hinv.bound, n7 hist hinv.fifo⟩
        · intro j pcj hj
          rcases getElem?_set_cases s.threads i j pc1 pcj hj with ⟨rfl, rfl⟩ | ⟨hne, hold⟩
          · exact n1
          · exact (hinv.mutex j pcj hold).trans (n2 j hne).symm
        · intro j hj
          simp only [List.length_set]
          by_cases hji : j = i
          · omega
          · exact hinv.holder j ((n2 j hji).mp hj)
        · intro j pcj hj
          rcases getElem?_set_cases s.threads i j pc1 pcj hj with ⟨rfl, rfl⟩ | ⟨hne, hold⟩
          · exact n5
          · cases hc : crit pcj with
            | false => exact localOK_of_not_crit _ _ hc
            | true =>
              have hhj := (hinv.mutex j pcj hold).mp hc
              have hci : crit pc = false := by
                cases hci : crit pc with
                | false => rfl
                | true =>
                  have := hmi.mp hci
                  rw [hhj] at this
                  exact absurd (Option.some.inj this) hne
              exact localOK_congr _ _ _ (n3 hci) n4 (hinv.loc j pcj hold)

theorem linked_step {β : Type} (env : Env β) (s s1 : Sys β) (hist obs : List Obs)
    (a : Action) (hinv : Inv s hist) (hl : Linked s) (hrel : a.isWaitFailure = false)
    (hs : step env s a = some (s1, obs)) : Linked s1 := by
  cases a with
  | append r v =>
    simp only [step, Option.some.injEq, Prod.mk.injEq] at hs
    obtain ⟨rfl, rfl⟩ := hs
    exact linked_spawn s r (some v) hl
  | append_p r =>
    simp only [step, Option.some.injEq, Prod.mk.injEq] at hs
    obtain ⟨rfl, rfl⟩ := hs
    exact linked_spawn s r none hl
  | wait_fails i => simp [Action.isWaitFailure] at hrel
  | run i =>
    simp only [step] at hs
    cases hpc : s.threads[i]? with
    | none => simp [hpc] at hs
    | some pc =>
      cases hn : next env s.sh i pc with
      | none => simp [hpc, hn] at hs
      | some res =>
        obtain ⟨pc1, sh1, obs1⟩ := res
        simp only [hpc, hn, Option.some.injEq, Prod.mk.injEq] at hs
        obtain ⟨rfl, rfl⟩ := hs
        have hlink := hl.link
        simp only [pendingPosts, pendingPops] at hlink
        have hpop : pendingPop pc ≤ s.sh.pool.m_workqueue.length := by
          have h1 := le_sum_map pendingPop s.threads i pc hpc
          omega
        obtain ⟨k1, k2⟩ := next_link env s.sh sh1 i pc pc1 obs1 hn (hinv.loc i pc hpc) hpop
        refine ⟨?_, ?_⟩
        · have h1 := sum_map_set pendingPost s.threads i pc pc1 hpc
          have h2 := sum_map_set pendingPop s.threads i pc pc1 hpc
          simp only [pendingPosts, pendingPops]
          omega
        · intro j hj
          rcases getElem?_set_cases s.threads i j pc1 _ hj with ⟨_, h2⟩ | ⟨_, hold⟩
          · exact k2 h2.symm
          · exact hl.noEmpty j hold

theorem inv_exec {β : Type} (env : Env β) (sched : List Action) (s s1 : Sys β)
    (hist tr : List Obs) (hinv : Inv s hist) (he : exec env s sched = some (s1, tr)) :
    Inv s1 (hist ++ tr) := by
  induction sched generalizing s hist tr with
  | nil =>
    simp only [exec, Option.some.injEq, Prod.mk.injEq] at he
    obtain ⟨rfl, rfl⟩ := he
    simpa using hinv
  | cons a rest ih =>
    simp only [exec] at he
    cases hs : step env s a with
    | none => simp [hs] at he
    | some r1 =>
      obtain ⟨s2, obs⟩ := r1
      cases hr : exec env s2 rest with
      | none => simp [hs, hr] at he
      | some r2 =>
        obtain ⟨s3, tr2⟩ := r2
        simp only [hs, hr, Option.some.injEq, Prod.mk.injEq] at he
        obtain ⟨rfl, rfl⟩ := he
        have := ih s2 (hist ++ obs) tr2 (inv_step env s s2 hist obs a hinv hs) hr
        simpa [List.append_assoc] using this

theorem linked_exec {β : Type} (env : Env β) (sched : List Action) (s s1 : Sys β)
    (hist tr : List Obs) (hinv : Inv s hist) (hl : Linked s)
    (hrel : reliable sched = true) (he : exec env s sched = some (s1, tr)) : Linked s1 := by
  induction sched generalizing s hist tr with
  | nil =>
    simp only [exec, Option.some.injEq, Prod.mk.injEq] at he
    obtain ⟨rfl, rfl⟩ := he
    exact hl
  | cons a rest ih =>
    simp only [exec] at he
    simp only [reliable, List.all_cons, Bool.and_eq_true, Bool.not_eq_true'] at hrel
    cases hs : step env s a with
    | none => simp [hs] at he
    | some r1 =>
      obtain ⟨s2, obs⟩ := r1
      cases hr : exec env s2 rest with
      | none => simp [hs, hr] at he
      | some r2 =>
        obtain ⟨s3, tr2⟩ := r2
        simp only [hs, hr, Option.some.injEq, Prod.mk.injEq] at he
        obtain ⟨rfl, rfl⟩ := he
        exact ih s2 (hist ++ obs) tr2 (inv_step env s s2 hist obs a hinv hs)
          (linked_step env s s2 hist obs a hinv hl hrel.1 hs) hrel.2 hr

theorem next_config {β : Type} (env : Env β) (sh sh1 : Shared β) (i : Nat) (pc pc1 : PC)
    (obs : List Obs) (hn : next env sh i pc = some (pc1, sh1, obs)) :
    sh1.pool.m_max_requests = sh.pool.m_max_requests ∧
      sh1.pool.m_actor_model = sh.pool.m_actor_model ∧
      sh1.pool.m_thread_number = sh.pool.m_thread_number := by
  cases pc <;> simp only [next] at hn
  all_goals (repeat' (split at hn))
  all_goals cases hn
  all_goals simp

theorem step_config {β : Type} (env : Env β) (a : Action) (s s1 : Sys β) (obs : List Obs)
    (hs : step env s a = some (s1, obs)) :
    s1.sh.pool.m_max_requests = s.sh.pool.m_max_requests ∧
      s1.sh.pool.m_actor_model = s.sh.pool.m_actor_model ∧
      s1.sh.pool.m_thread_number = s.sh.pool.m_thread_number := by
  cases a with
  | append r v =>
    simp only [step, Option.some.injEq, Prod.mk.injEq] at hs
    obtain ⟨rfl, rfl⟩ := hs
    exact ⟨rfl, rfl, rfl⟩
  | append_p r =>
    simp only [step, Option.some.injEq, Prod.mk.injEq] at hs
    obtain ⟨rfl, rfl⟩ := hs
    exact ⟨rfl, rfl, rfl⟩
  | wait_fails i =>
    simp only [step] at hs
    split at hs
    · simp only [Option.some.injEq, Prod.mk.injEq] at hs
      obtain ⟨rfl, rfl⟩ := hs
      exact ⟨rfl, rfl, rfl⟩
    · exact absurd hs (by simp)
  | run i =>
    simp only [step] at hs
    cases hpc : s.threads[i]? with
    | none => simp [hpc] at hs
    | some pc =>
      cases hn : next env s.sh i pc with
      | none => simp [hpc, hn] at hs
      | some res =>
        obtain ⟨pc1, sh1, obs1⟩ := res
        simp only [hpc, hn, Option.some.injEq, Prod.mk.injEq] at hs
        obtain ⟨rfl, rfl⟩ := hs
        exact next_config env s.sh sh1 i pc pc1 obs1 hn

theorem exec_config {β : Type} (env : Env β) (sched : List Action) (s s1 : Sys β)
    (tr : List Obs) (he : exec env s sched = some (s1, tr)) :
    s1.sh.pool.m_max_requests = s.sh.pool.m_max_requests ∧
      s1.sh.pool.m_actor_model = s.sh.pool.m_actor_model ∧
      s1.sh.pool.m_thread_number = s.sh.pool.m_thread_number := by
  induction sched generalizing s tr with
  | nil =>
    simp only [exec, Option.some.injEq, Prod.mk.injEq] at he
    obtain ⟨rfl, rfl⟩ := he
    exact ⟨rfl, rfl, rfl⟩
  | cons a rest ih =>
    simp only [exec] at he
    cases hs : step env s a with
    | none => simp [hs] at he
    | some r1 =>
      obtain ⟨s2, obs⟩ := r1
      cases hr : exec env s2 rest with
      | none => simp [hs, hr] at he
      | some r2 =>
        obtain ⟨s3, tr2⟩ := r2
        simp only [hs, hr, Option.some.injEq, Prod.mk.injEq] at he
        obtain ⟨rfl, rfl⟩ := he
        have h2 := ih s2 tr2 hr
        have h1 := step_config env a s s2 obs hs
        exact ⟨h2.1.trans h1.1, h2.2.1.trans h1.2.1, h2.2.2.trans h1.2.2⟩

theorem threadpool_new_spec (a n m : Int) (p : Pool) (hp : threadpool_new a n m = some p) :
    0 < n ∧ 0 < m ∧ p.m_max_requests = m ∧ p.m_thread_number = n ∧ p.m_actor_model = a ∧
      p.m_workqueue = [] ∧ p.m_queuestat = 0 := by
  unfold threadpool_new at hp
  split at hp
  · exact absurd hp (by simp)
  · rename_i hc
    simp only [Option.some.injEq] at hp
    subst hp
    simp only [not_or, not_le] at hc
    exact ⟨hc.1, hc.2, rfl, rfl, rfl, rfl, rfl⟩

theorem inv_reachable {β : Type} (env : Env β) (a n m : Int) (p : Pool) (h : Heap β)
    (sched : List Action) (s : Sys β) (tr : List Obs)
    (hp : threadpool_new a n m = some p)
    (he : exec env (boot p h) sched = some (s, tr)) : Inv s tr := by
  obtain ⟨_, _, _, _, _, hq, _⟩ := threadpool_new_spec a n m p hp
  simpa using inv_exec env sched (boot p h) s [] tr (inv_boot p h hq) he

theorem linked_reachable {β : Type} (env : Env β) (a n m : Int) (p : Pool) (h : Heap β)
    (sched : List Action) (s : Sys β) (tr : List Obs)
    (hp : threadpool_new a n m = some p) (hrel : reliable sched = true)
    (he : exec env (boot p h) sched = some (s, tr)) : Linked s := by
  obtain ⟨_, _, _, _, _, hq, hs⟩ := threadpool_new_spec a n m p hp
  exact linked_exec env sched (boot p h) s [] tr (inv_boot p h hq) (linked_boot p h hq hs)
    hrel he

/-- The test of line 171 is not idle: when `sem_wait` fails before anything
was appended, the worker takes the mutex, finds the queue empty and reaches
line 173. -/
theorem empty_branch_after_failed_wait :
    (exec envId (boot poolSmall heapFresh) schedInterrupted).map (snapshot ∘ Prod.fst)
      = some (some 0, 0, [], [.wUnlockEmpty]) := by
  decide

/-! ## The two layers agree -/

/-- The statements of one activation of `append`, run from a state with the
mutex free and without any other thread taking a step in between, have the
effect of the sequential `append` on the pool and the heap, and the
activation returns the same flag. -/
theorem append_run_alone {β : Type} (env : Env β) (s : Sys β) (i : Nat) (r : Ptr) (v : Int)
    (b : Bool) (p1 : Pool) (h1 : Heap β)
    (hi : s.threads[i]? = some (.aLock r (some v)))
    (hfree : s.sh.m_queuelocker = none)
    (hseq : append s.sh.pool s.sh.heap r v = some (b, p1, h1)) :
    exec env s (List.replicate (if b then 6 else 3) (.run i))
      = some ({ sh := { pool := p1, m_queuelocker := none, heap := h1 }
                threads := s.threads.set i (.aRet b) },
              if b then [.pushed r] else []) := by
  obtain ⟨sh, threads⟩ := s
  obtain ⟨pool, locker, heap⟩ := sh
  simp only at hi hfree hseq
  subst hfree
  have hilt := lt_length_of_getElem? threads i _ hi
  unfold append at hseq
  by_cases hq : queueFull pool = true
  · simp only [hq, if_true, Option.some.injEq, Prod.mk.injEq] at hseq
    obtain ⟨rfl, rfl, rfl⟩ := hseq
    simp [List.replicate, exec, step, next, hi, hq, hilt]
  · have hq : queueFull pool = false := by simpa using hq
    by_cases hr : r = 0
    · simp [hq, hr] at hseq
    · simp only [hq, hr, if_false, Option.some.injEq, Prod.mk.injEq] at hseq
      obtain ⟨rfl, rfl, rfl⟩ := hseq
      simp [List.replicate, exec, step, next, hi, hq, hilt, hr]

/-- The same for one activation of `append_p`. -/
theorem append_p_run_alone {β : Type} (env : Env β) (s : Sys β) (i : Nat) (r : Ptr)
    (b : Bool) (p1 : Pool) (h1 : Heap β)
    (hi : s.threads[i]? = some (.aLock r none))
    (hfree : s.sh.m_queuelocker = none)
    (hseq : append_p s.sh.pool s.sh.heap r = some (b, p1, h1)) :
    exec env s (List.replicate (if b then 5 else 3) (.run i))
      = some ({ sh := { pool := p1, m_queuelocker := none, heap := h1 }
                threads := s.threads.set i (.aRet b) },
              if b then [.pushed r] else []) := by
  obtain ⟨sh, threads⟩ := s
  obtain ⟨pool, locker, heap⟩ := sh
  simp only at hi hfree hseq
  subst hfree
  have hilt := lt_length_of_getElem? threads i _ hi
  unfold append_p at hseq
  by_cases hq : queueFull pool = true
  · simp only [hq, if_true, Option.some.injEq, Prod.mk.injEq] at hseq
    obtain ⟨rfl, rfl, rfl⟩ := hseq
    simp [List.replicate, exec, step, next, hi, hq, hilt]
  · have hq : queueFull pool = false := by simpa using hq
    simp only [hq, if_false, Option.some.injEq, Prod.mk.injEq] at hseq
    obtain ⟨rfl, rfl, rfl⟩ := hseq
    simp [List.replicate, exec, step, next, hi, hq, hilt]

/-- One iteration of `run` by worker `i`, from a state with the mutex free, a
positive count and a non-empty queue, and without any other thread taking a
step in between: the count goes down by one, the front request leaves the
queue and is dispatched, and the worker is back at line 169. -/
theorem run_iteration_alone {β : Type} (env : Env β) (s : Sys β) (i : Nat) (r : Ptr)
    (rest : List Ptr) (hi : s.threads[i]? = some .wWait)
    (hfree : s.sh.m_queuelocker = none) (hsem : 0 < s.sh.pool.m_queuestat)
    (hq : s.sh.pool.m_workqueue = r :: rest) :
    exec env s (List.replicate 7 (.run i))
      = some ({ sh :=
                  { pool := { s.sh.pool with
                      m_workqueue := rest, m_queuestat := s.sh.pool.m_queuestat - 1 }
                    m_queuelocker := none
                    heap := (afterPop env s.sh.pool.m_actor_model r s.sh.heap).1 }
                threads := s.threads.set i .wWait },
              [.popped r]) := by
  obtain ⟨sh, threads⟩ := s
  obtain ⟨pool, locker, heap⟩ := sh
  obtain ⟨tn, mr, wq, qs, am⟩ := pool
  simp only at hi hfree hsem hq
  subst hfree
  subst hq
  have hilt := lt_length_of_getElem? threads i _ hi
  simp [List.replicate, exec, step, next, hi, hilt, hsem]

/-! ## The claims: enqueue -/

/-- C1: on a full queue (length equal to a positive `m_max_requests`) both
`append` and `append_p` return `false` and leave the pool and the heap as they
were: the queue is the same sequence, the semaphore count is unchanged and the
stage of the request is unchanged. -/
theorem append_full_rejected {β : Type} (p : Pool) (h : Heap β) (request : Ptr)
    (state : Int) (hpos : 0 < p.m_max_requests)
    (hfull : (p.m_workqueue.length : Int) = p.m_max_requests) :
    append p h request state = some (false, p, h) ∧
      append_p p h request = some (false, p, h) := by
  have hq : queueFull p = true := by
    have := toSizeT_le p.m_max_requests (le_of_lt hpos)
    simp only [queueFull, decide_eq_true_eq]
    omega
  simp [append, append_p, hq]

theorem append_full_rejected_witness :
    append poolFull heapFresh 9 1 = some (false, poolFull, heapFresh) ∧
      append_p poolFull heapFresh 9 = some (false, poolFull, heapFresh) :=
  append_full_rejected poolFull heapFresh 9 1 (by decide) (by decide)

/-- C2: below capacity, `append` of a non-null request returns `true`; the
new queue is the old one with the request added at the back, one longer; the
stage of the request is the given one; the semaphore count is one more (one
post).  The rest of the request, every other request and the configuration
are untouched.  `m_max_requests` is an `int`, hence below `2 ^ 31`. -/
theorem append_below_capacity {β : Type} (p : Pool) (h : Heap β) (request : Ptr)
    (state : Int) (hreq : request ≠ 0)
    (hlt : (p.m_workqueue.length : Int) < p.m_max_requests)
    (hint : p.m_max_requests < 2 ^ 31) :
    ∃ p1 h1, append p h request state = some (true, p1, h1) ∧
      p1.m_workqueue = p.m_workqueue ++ [request] ∧
      p1.m_workqueue.length = p.m_workqueue.length + 1 ∧
      (h1 request).m_state = state ∧
      p1.m_queuestat = p.m_queuestat + 1 ∧
      p1.m_max_requests = p.m_max_requests ∧
      h1 request = { h request with m_state := state } ∧
      ∀ a, a ≠ request → h1 a = h a := by
  have hq : queueFull p = false := by
    have := toSizeT_eq p.m_max_requests (by omega) hint
    simp only [queueFull, decide_eq_false_iff_not]
    omega
  refine ⟨{ p with m_workqueue := p.m_workqueue ++ [request], m_queuestat := p.m_queuestat + 1 },
    h.store request { h request with m_state := state }, ?_, rfl, ?_, ?_, rfl, rfl, ?_, ?_⟩
  · simp [append, hq, hreq]
  · simp
  · simp [Heap.store]
  · simp [Heap.store]
  · intro a ha
    simp [Heap.store, ha]

theorem append_below_capacity_witness :
    ∃ p1 h1, append poolSmall heapFresh 5 1 = some (true, p1, h1) ∧
      p1.m_workqueue = poolSmall.m_workqueue ++ [5] ∧
      p1.m_workqueue.length = poolSmall.m_workqueue.length + 1 ∧
      (h1 5).m_state = 1 ∧
      p1.m_queuestat = poolSmall.m_queuestat + 1 ∧
      p1.m_max_requests = poolSmall.m_max_requests ∧
      h1 5 = { heapFresh 5 with m_state := 1 } ∧
      ∀ a, a ≠ 5 → h1 a = heapFresh a :=
  append_below_capacity poolSmall heapFresh 5 1 (by decide) (by decide) (by decide)

/-! ## The claims: dispatch -/

/-- C3: reactor mode, stage `0`, `read_once` fails: the pool sets `improv` and
`timer_flag`, and neither calls `process` nor acquires a connection. -/
theorem reactor_read_failure {β : Type} (env : Env β) (request : Ptr) (h : Heap β)
    (hreq : request ≠ 0) (hst : (h request).m_state = 0)
    (hrd : (env.read_once (h request)).1 = false) :
    ((afterPop env 1 request h).1 request).improv = true ∧
      ((afterPop env 1 request h).1 request).timer_flag = true ∧
      Event.process ∉ (afterPop env 1 request h).2 ∧
      Event.acquire ∉ (afterPop env 1 request h).2 ∧
      (afterPop env 1 request h).2 = [.read_once, .set_improv, .set_timer_flag] := by
  simp [afterPop, dispatch, hreq, hst, hrd, Heap.store]

theorem reactor_read_failure_witness :
    ((afterPop envFail 1 5 heapFresh).1 5).improv = true ∧
      ((afterPop envFail 1 5 heapFresh).1 5).timer_flag = true ∧
      Event.process ∉ (afterPop envFail 1 5 heapFresh).2 ∧
      Event.acquire ∉ (afterPop envFail 1 5 heapFresh).2 ∧
      (afterPop envFail 1 5 heapFresh).2 = [.read_once, .set_improv, .set_timer_flag] :=
  reactor_read_failure envFail 5 heapFresh (by decide) rfl rfl

/-- C4, as stated, fails: a request at stage `0` that enters the dispatch step
with `timer_flag` set, and whose `read_once` succeeds, leaves it with
`timer_flag` still set. -/
theorem reactor_read_success_keeps_timer_flag :
    (5 : Ptr) ≠ 0 ∧ (heapExpiring 5).m_state = 0 ∧
      (envId.read_once (heapExpiring 5)).1 = true ∧
      ((afterPop envId 1 5 heapExpiring).1 5).improv = true ∧
      ((afterPop envId 1 5 heapExpiring).1 5).timer_flag = true := by
  decide

/-- C4, amended: reactor mode, stage `0`, `read_once` succeeds: `process` is
called exactly once, between the acquisition and the release of the scoped
connection, on the request `read_once` left with `improv` set and the
connection bound; the pool does not store to `timer_flag`.  So when `process`
keeps the two flags, `improv` is true afterwards and `timer_flag` is what
`read_once` left. -/
theorem reactor_read_success {β : Type} (env : Env β) (request : Ptr) (h : Heap β)
    (hreq : request ≠ 0) (hst : (h request).m_state = 0)
    (hrd : (env.read_once (h request)).1 = true) :
    (afterPop env 1 request h).2
        = [.read_once, .set_improv, .acquire, .process, .release] ∧
      (afterPop env 1 request h).2.count .process = 1 ∧
      Event.set_timer_flag ∉ (afterPop env 1 request h).2 ∧
      (afterPop env 1 request h).1 request
        = env.process
            { (env.read_once (h request)).2 with improv := true, mysql := env.conn } ∧
      ((∀ r, (env.process r).improv = r.improv ∧ (env.process r).timer_flag = r.timer_flag) →
        ((afterPop env 1 request h).1 request).improv = true ∧
        ((afterPop env 1 request h).1 request).timer_flag
          = (env.read_once (h request)).2.timer_flag) := by
  have hout : (afterPop env 1 request h).1 request
      = env.process
          { (env.read_once (h request)).2 with improv := true, mysql := env.conn } := by
    simp [afterPop, dispatch, hreq, hst, hrd, Heap.store, connectionRAII]
  refine ⟨?_, ?_, ?_, hout, ?_⟩
  · simp [afterPop, dispatch, hreq, hst, hrd]
  · simp [afterPop, dispatch, hreq, hst, hrd]
  · simp [afterPop, dispatch, hreq, hst, hrd]
  · intro hp
    rw [hout]
    simp [(hp _).1, (hp _).2]

theorem reactor_read_success_witness :
    (afterPop envId 1 5 heapFresh).2
        = [.read_once, .set_improv, .acquire, .process, .release] ∧
      (afterPop envId 1 5 heapFresh).2.count .process = 1 ∧
      Event.set_timer_flag ∉ (afterPop envId 1 5 heapFresh).2 ∧
      (afterPop envId 1 5 heapFresh).1 5
        = envId.process
            { (envId.read_once (heapFresh 5)).2 with improv := true, mysql := envId.conn } ∧
      ((∀ r, (envId.process r).improv = r.improv ∧
          (envId.process r).timer_flag = r.timer_flag) →
        ((afterPop envId 1 5 heapFresh).1 5).improv = true ∧
        ((afterPop envId 1 5 heapFresh).1 5).timer_flag
          = (envId.read_once (heapFresh 5)).2.timer_flag) :=
  reactor_read_success envId 5 heapFresh (by decide) rfl rfl

/-- C5: proactor mode (`m_actor_model` other than `1`), any stage: `process`
is called exactly once, inside one acquisition of the scoped connection;
`read_once` and `write` are not called and the pool stores to neither flag:
the request afterwards is what `process` returned for the request with the
connection bound. -/
theorem proactor_dispatch {β : Type} (env : Env β) (m_actor_model : Int) (request : Ptr)
    (h : Heap β) (hmode : m_actor_model ≠ 1) (hreq : request ≠ 0) :
    (afterPop env m_actor_model request h).2 = [.acquire, .process, .release] ∧
      (afterPop env m_actor_model request h).2.count .process = 1 ∧
      (afterPop env m_actor_model request h).2.count .acquire = 1 ∧
      Event.read_once ∉ (afterPop env m_actor_model request h).2 ∧
      Event.write ∉ (afterPop env m_actor_model request h).2 ∧
      Event.set_improv ∉ (afterPop env m_actor_model request h).2 ∧
      Event.set_timer_flag ∉ (afterPop env m_actor_model request h).2 ∧
      (afterPop env m_actor_model request h).1 request
        = env.process { h request with mysql := env.conn } := by
  have hm : ¬ (1 = m_actor_model) := fun e => hmode e.symm
  simp [afterPop, dispatch, hreq, hm, Heap.store, connectionRAII]

theorem proactor_dispatch_witness :
    (afterPop envFail 0 5 heapWriting).2 = [.acquire, .process, .release] ∧
      (afterPop envFail 0 5 heapWriting).2.count .process = 1 ∧
      (afterPop envFail 0 5 heapWriting).2.count .acquire = 1 ∧
      Event.read_once ∉ (afterPop envFail 0 5 heapWriting).2 ∧
      Event.write ∉ (afterPop envFail 0 5 heapWriting).2 ∧
      Event.set_improv ∉ (afterPop envFail 0 5 heapWriting).2 ∧
      Event.set_timer_flag ∉ (afterPop envFail 0 5 heapWriting).2 ∧
      (afterPop envFail 0 5 heapWriting).1 5
        = envFail.process { heapWriting 5 with mysql := envFail.conn } :=
  proactor_dispatch envFail 0 5 heapWriting (by decide) (by decide)

/-- C6: reactor mode, stage `1`: `write` is called exactly once, `read_once`
and `process` are not called.  When `write` succeeds the pool sets `improv`
and does not store to `timer_flag`; when it fails the pool sets both. -/
theorem reactor_write {β : Type} (env : Env β) (request : Ptr) (h : Heap β)
    (hreq : request ≠ 0) (hst : (h request).m_state = 1) :
    (afterPop env 1 request h).2.count .write = 1 ∧
      Event.read_once ∉ (afterPop env 1 request h).2 ∧
      Event.process ∉ (afterPop env 1 request h).2 ∧
      ((env.write (h request)).1 = true →
        (afterPop env 1 request h).1 request
          = { (env.write (h request)).2 with improv := true } ∧
        ((afterPop env 1 request h).1 request).improv = true ∧
        Event.set_timer_flag ∉ (afterPop env 1 request h).2) ∧
      ((env.write (h request)).1 = false →
        ((afterPop env 1 request h).1 request).improv = true ∧
        ((afterPop env 1 request h).1 request).timer_flag = true) := by
  cases hw : (env.write (h request)).1 <;>
    simp [afterPop, dispatch, hreq, hst, hw, Heap.store]

theorem reactor_write_witness :
    (afterPop envFail 1 5 heapWriting).2.count .write = 1 ∧
      Event.read_once ∉ (afterPop envFail 1 5 heapWriting).2 ∧
      Event.process ∉ (afterPop envFail 1 5 heapWriting).2 ∧
      ((envFail.write (heapWriting 5)).1 = true →
        (afterPop envFail 1 5 heapWriting).1 5
          = { (envFail.write (heapWriting 5)).2 with improv := true } ∧
        ((afterPop envFail 1 5 heapWriting).1 5).improv = true ∧
        Event.set_timer_flag ∉ (afterPop envFail 1 5 heapWriting).2) ∧
      ((envFail.write (heapWriting 5)).1 = false →
        ((afterPop envFail 1 5 heapWriting).1 5).improv = true ∧
        ((afterPop envFail 1 5 heapWriting).1 5).timer_flag = true) :=
  reactor_write envFail 5 heapWriting (by decide) rfl

/-! ## The claims: interleavings -/

/-- C7: in every run of a pool as constructed (empty queue), whatever the
interleaving of the statements of `append`, `append_p` and the workers (a
`wait` may even fail), the requests popped so far, in pop order, followed by
the queue, are exactly the requests pushed so far, in push order.  So the
popped sequence is a prefix of the pushed one: nothing is popped twice,
nothing is skipped, and the order is kept. -/
theorem popped_sequence_fifo {β : Type} (env : Env β) (a n m : Int) (p : Pool)
    (h : Heap β) (sched : List Action) (s : Sys β) (tr : List Obs)
    (hp : threadpool_new a n m = some p)
    (he : exec env (boot p h) sched = some (s, tr)) :
    pops tr <+: pushes tr ∧ pushes tr = pops tr ++ s.sh.pool.m_workqueue := by
  have hinv := inv_reachable env a n m p h sched s tr hp he
  exact ⟨⟨_, hinv.fifo.symm⟩, hinv.fifo⟩

theorem popped_sequence_fifo_witness :
    pops [.pushed 5, .pushed 6, .popped 5] <+: pushes [.pushed 5, .pushed 6, .popped 5] ∧
      pushes [.pushed 5, .pushed 6, .popped 5]
        = pops [.pushed 5, .pushed 6, .popped 5] ++ sysPopped.sh.pool.m_workqueue :=
  popped_sequence_fifo envId 1 1 2 poolSmall heapFresh schedPopped sysPopped
    [.pushed 5, .pushed 6, .popped 5] rfl rfl

/-- C8, as stated, fails: after one complete `append_p` the worker returns
from `wait` and takes the mutex; it then holds the mutex in a state whose
queue has one item while the semaphore counts zero. -/
theorem semaphore_differs_under_mutex :
    (exec envId (boot poolSmall heapFresh) schedLocked).map (snapshot ∘ Prod.fst)
      = some (some 0, 0, [5], [.wCheck, .aRet true]) := by
  decide

/-- C8, amended: in every state reached by the statements of `append`,
`append_p` and the workers, each `wait` returning after a decrement, the
queue length is the semaphore count plus the number of `append` / `append_p`
activations that have pushed and not yet posted plus the number of workers
that have returned from `wait` and not yet popped.  So the count never
exceeds the queue length, and equals it in every state without such an
activation and such a worker. -/
theorem semaphore_linkage {β : Type} (env : Env β) (a n m : Int) (p : Pool)
    (h : Heap β) (sched : List Action) (s : Sys β) (tr : List Obs)
    (hp : threadpool_new a n m = some p) (hrel : reliable sched = true)
    (he : exec env (boot p h) sched = some (s, tr)) :
    s.sh.pool.m_workqueue.length
        = s.sh.pool.m_queuestat + pendingPosts s + pendingPops s ∧
      s.sh.pool.m_queuestat ≤ s.sh.pool.m_workqueue.length ∧
      (pendingPosts s = 0 → pendingPops s = 0 →
        s.sh.pool.m_queuestat = s.sh.pool.m_workqueue.length) := by
  have hl := (linked_reachable env a n m p h sched s tr hp hrel he).link
  refine ⟨hl, by omega, ?_⟩
  intro h1 h2
  omega

theorem semaphore_linkage_witness :
    sysLocked.sh.pool.m_workqueue.length
        = sysLocked.sh.pool.m_queuestat + pendingPosts sysLocked + pendingPops sysLocked ∧
      sysLocked.sh.pool.m_queuestat ≤ sysLocked.sh.pool.m_workqueue.length ∧
      (pendingPosts sysLocked = 0 → pendingPops sysLocked = 0 →
        sysLocked.sh.pool.m_queuestat = sysLocked.sh.pool.m_workqueue.length) :=
  semaphore_linkage envId 1 1 2 poolSmall heapFresh schedLocked sysLocked [.pushed 5]
    rfl rfl rfl

/-- C9: for a pool constructed with `max_requests = m` (the constructor
requires `m > 0`), the queue never holds more than `m` requests, in any state
reached by any interleaving of the statements of `append`, `append_p` and the
workers (a `wait` may even fail); `m_max_requests` itself never changes. -/
theorem queue_never_exceeds_max {β : Type} (env : Env β) (a n m : Int) (p : Pool)
    (h : Heap β) (sched : List Action) (s : Sys β) (tr : List Obs)
    (hp : threadpool_new a n m = some p)
    (he : exec env (boot p h) sched = some (s, tr)) :
    (s.sh.pool.m_workqueue.length : Int) ≤ m ∧ s.sh.pool.m_max_requests = m := by
  have hinv := inv_reachable env a n m p h sched s tr hp he
  obtain ⟨_, hm, hpm, _⟩ := threadpool_new_spec a n m p hp
  have hc := (exec_config env sched (boot p h) s tr he).1
  have hmax : s.sh.pool.m_max_requests = m := by
    rw [hc]
    exact hpm
  have hb := hinv.bound
  rw [hmax] at hb
  have := toSizeT_le m (le_of_lt hm)
  exact ⟨by omega, hmax⟩

theorem queue_never_exceeds_max_witness :
    (sysLocked.sh.pool.m_workqueue.length : Int) ≤ 2 ∧ sysLocked.sh.pool.m_max_requests = 2 :=
  queue_never_exceeds_max envId 1 1 2 poolSmall heapFresh schedLocked sysLocked [.pushed 5]
    rfl rfl

/-- C10: when every `wait` returns only after a decrement (the schedule is
`reliable`), in every reachable state the semaphore count plus the number of
workers between their `wait` and their pop is at most the queue length.  So a
worker that holds the mutex at the test of line 171 finds the queue
non-empty, its next statement is `front` of line 176, and no worker is ever
at line 173. -/
theorem empty_branch_never_taken {β : Type} (env : Env β) (a n m : Int) (p : Pool)
    (h : Heap β) (sched : List Action) (s : Sys β) (tr : List Obs)
    (hp : threadpool_new a n m = some p) (hrel : reliable sched = true)
    (he : exec env (boot p h) sched = some (s, tr)) :
    s.sh.pool.m_queuestat + pendingPops s ≤ s.sh.pool.m_workqueue.length ∧
      (∀ i : Nat, s.threads[i]? = some .wCheck →
        s.sh.pool.m_workqueue ≠ [] ∧
        ∃ s1, step env s (.run i) = some (s1, []) ∧ s1.threads[i]? = some .wFront) ∧
      (∀ i : Nat, s.threads[i]? ≠ some .wUnlockEmpty) := by
  have hlk := linked_reachable env a n m p h sched s tr hp hrel he
  have hl := hlk.link
  refine ⟨by omega, ?_, hlk.noEmpty⟩
  · intro i hi
    have h1 := le_sum_map pendingPop s.threads i .wCheck hi
    simp only [pendingPops] at hl
    have hlen : 0 < s.sh.pool.m_workqueue.length := by
      simp only [pendingPop] at h1
      omega
    have hne : s.sh.pool.m_workqueue ≠ [] := by
      intro e
      rw [e] at hlen
      simp at hlen
    have hilt := lt_length_of_getElem? s.threads i _ hi
    refine ⟨hne, ⟨{ sh := s.sh, threads := s.threads.set i .wFront }, ?_, ?_⟩⟩
    · simp [step, hi, next, hne]
    · simp [hilt]

theorem empty_branch_never_taken_witness :
    sysLocked.sh.pool.m_queuestat + pendingPops sysLocked
        ≤ sysLocked.sh.pool.m_workqueue.length ∧
      (∀ i : Nat, sysLocked.threads[i]? = some .wCheck →
        sysLocked.sh.pool.m_workqueue ≠ [] ∧
        ∃ s1, step envId sysLocked (.run i) = some (s1, []) ∧
          s1.threads[i]? = some .wFront) ∧
      (∀ i : Nat, sysLocked.threads[i]? ≠ some .wUnlockEmpty) :=
  empty_branch_never_taken envId 1 1 2 poolSmall heapFresh schedLocked sysLocked [.pushed 5]
    rfl rfl rfl

end MiniWebServer
